import Mathlib

/-!
Verification of the 24-game solver (`GAME-24.py`).

The solver searches, for four exact rational operands, all expressions
built from three binary operators out of `+ - * /` and one of the five
parenthesization shapes of a four-leaf binary expression, optionally over
all 24 operand orderings, and returns the sorted deduplicated list of the
formatted expressions whose value passes the acceptance test
`abs(result - 24) < 1e-9` (computed over exact rationals compared against
the exact rational value of the IEEE-754 double `1e-9`).

Python's `Fraction` values are embedded as `ℚ`; the raising `apply_op`
is embedded as an `Option ℚ`-valued function (`none` = `ZeroDivisionError`);
the accumulating `set` of solution strings is embedded as a duplicate-free
list built with `List.insert`, and `sorted` as `List.insertionSort (· ≤ ·)`
over the lexicographic order on `String` (code-point order, the same order
Python uses on these ASCII strings).
-/

namespace Game24

/-- The four operator symbols of the game, `'+' '-' '*' '/'` in the source. -/
inductive Op where
  | add
  | sub
  | mul
  | div
deriving DecidableEq

/-- Rendering of an operator symbol, as interpolated into the f-strings. -/
def opStr : Op → String
  | .add => "+"
  | .sub => "-"
  | .mul => "*"
  | .div => "/"

/-- Embedding of the inner `apply_op(x, y, op)` of `evaluate_expression`:
division by zero raises `ZeroDivisionError` in the source, embedded as `none`. -/
def apply_op (x y : ℚ) (op : Op) : Option ℚ :=
  match op with
  | .add => some (x + y)
  | .sub => some (x - y)
  | .mul => some (x * y)
  | .div => if y = 0 then none else some (x / y)

/-- The five parenthesization shapes, matched by their template strings in the
source: `s1` = `((a op1 b) op2 c) op3 d`, `s2` = `(a op1 (b op2 c)) op3 d`,
`s3` = `(a op1 b) op2 (c op3 d)`, `s4` = `a op1 ((b op2 c) op3 d)`,
`s5` = `a op1 (b op2 (c op3 d))`. -/
inductive Structure where
  | s1
  | s2
  | s3
  | s4
  | s5
deriving DecidableEq

/-- Exact value of one candidate: the nested `apply_op` calls of the branch of
`evaluate_expression` selected by the structure template, innermost first. -/
def evalStructVal (st : Structure) (a b c d : ℚ) (op1 op2 op3 : Op) : Option ℚ :=
  match st with
  | .s1 => (apply_op a b op1).bind fun x => (apply_op x c op2).bind fun y => apply_op y d op3
  | .s2 => (apply_op b c op2).bind fun x => (apply_op a x op1).bind fun y => apply_op y d op3
  | .s3 => (apply_op a b op1).bind fun x => (apply_op c d op3).bind fun y => apply_op x y op2
  | .s4 => (apply_op b c op2).bind fun x => (apply_op x d op3).bind fun y => apply_op a y op1
  | .s5 => (apply_op c d op3).bind fun x => (apply_op b x op2).bind fun y => apply_op a y op1

/-- Display of an exact rational, matching `str(Fraction(...))`: an integer
renders without a denominator, otherwise `num/den` in lowest terms. -/
def fracStr (q : ℚ) : String :=
  if q.den = 1 then toString q.num else toString q.num ++ "/" ++ toString q.den

/-- The `expr` f-string of the branch of `evaluate_expression` selected by the
structure template. -/
def formatStruct (st : Structure) (a b c d : ℚ) (op1 op2 op3 : Op) : String :=
  match st with
  | .s1 => "((" ++ fracStr a ++ " " ++ opStr op1 ++ " " ++ fracStr b ++ ") " ++ opStr op2
      ++ " " ++ fracStr c ++ ") " ++ opStr op3 ++ " " ++ fracStr d
  | .s2 => "(" ++ fracStr a ++ " " ++ opStr op1 ++ " (" ++ fracStr b ++ " " ++ opStr op2
      ++ " " ++ fracStr c ++ ")) " ++ opStr op3 ++ " " ++ fracStr d
  | .s3 => "(" ++ fracStr a ++ " " ++ opStr op1 ++ " " ++ fracStr b ++ ") " ++ opStr op2
      ++ " (" ++ fracStr c ++ " " ++ opStr op3 ++ " " ++ fracStr d ++ ")"
  | .s4 => fracStr a ++ " " ++ opStr op1 ++ " ((" ++ fracStr b ++ " " ++ opStr op2
      ++ " " ++ fracStr c ++ ") " ++ opStr op3 ++ " " ++ fracStr d ++ ")"
  | .s5 => fracStr a ++ " " ++ opStr op1 ++ " (" ++ fracStr b ++ " " ++ opStr op2
      ++ " (" ++ fracStr c ++ " " ++ opStr op3 ++ " " ++ fracStr d ++ "))"

/-- Exact rational value of the IEEE-754 double `1e-9` that the source's
`abs(result - 24) < 1e-9` compares against (Python's `Fraction`/`float`
comparison converts the float to its exact rational value). -/
def tol : ℚ := 4835703278458517 / 4835703278458516698824704

/-- Embedding of `Game24.evaluate_expression`: evaluates one candidate,
returning `(False, "")` on division by zero and otherwise the acceptance
flag `abs(result - 24) < 1e-9` together with the formatted expression. -/
def evaluate_expression (a b c d : ℚ) (op1 op2 op3 : Op) (st : Structure) : Bool × String :=
  match evalStructVal st a b c d op1 op2 op3 with
  | none => (false, "")
  | some result =>
    if |result - 24| < tol then (true, formatStruct st a b c d op1 op2 op3)
    else (false, formatStruct st a b c d op1 op2 op3)

/-- Strict lexicographic comparison of character lists by code point, the
order Python's `sorted` uses on strings. Defined as an executable boolean
(proved equivalent to Mathlib's order on `String` in `strLe_iff` below). -/
def charsLt : List Char → List Char → Bool
  | [], [] => false
  | _ :: _, [] => false
  | [], _ :: _ => true
  | a :: as, b :: bs => decide (a < b) || (decide (a = b) && charsLt as bs)

/-- Executable `≤` on strings: lexicographic by code point. -/
def strLe (s t : String) : Bool := !(charsLt t.data s.data)

instance decStrLe : DecidableRel fun s t : String => strLe s t = true :=
  fun _ _ => instDecidableEqBool _ _

/-- The operator list `['+', '-', '*', '/']` iterated by the three nested
`itertools.product` loops. -/
def allOps : List Op := [.add, .sub, .mul, .div]

/-- The `structures` list of the source, in source order. -/
def allStructs : List Structure := [.s1, .s2, .s3, .s4, .s5]

/-- Innermost loop of `find_all_solutions_from_numbers`: `for structure in
structures`, adding the formatted expression to the solution set when
`is_solution` holds (set add embedded as `List.insert`). -/
def structStep (a b c d : ℚ) (op1 op2 op3 : Op) (acc : List String) : List String :=
  allStructs.foldl (fun acc st =>
    let r := evaluate_expression a b c d op1 op2 op3 st
    if r.1 then acc.insert r.2 else acc) acc

/-- The three nested operator loops (`itertools.product(operations, repeat=3)`)
of `find_all_solutions_from_numbers` for one operand ordering. -/
def searchStep (a b c d : ℚ) (acc : List String) : List String :=
  allOps.foldl (fun acc op1 =>
    allOps.foldl (fun acc op2 =>
      allOps.foldl (fun acc op3 =>
        structStep a b c d op1 op2 op3 acc) acc) acc) acc

/-- The ordering loop of `find_all_solutions_from_numbers`: the accumulated
solution set (as a duplicate-free list) after all candidates are tried.
A permutation that is not a quadruple contributes nothing (the source would
fail tuple unpacking there; it is only ever called with four numbers).
`itertools.permutations` is embedded as `List.permutations'` (the structurally
recursive enumeration of the same multiset of orderings; the output is
canonicalized by the final sort, so only the set of orderings matters). -/
def solutionsAcc (numbers : List ℚ) (keep_order : Bool) : List String :=
  (if keep_order then [numbers] else numbers.permutations').foldl
    (fun acc perm =>
      match perm with
      | [a, b, c, d] => searchStep a b c d acc
      | _ => acc) []

/-- Embedding of `Game24.find_all_solutions_from_numbers`: the nested loops
over orderings, operator triples and structures accumulate accepted formatted
expressions into a set, and `sorted(list(solutions))` returns it sorted. -/
def find_all_solutions_from_numbers (numbers : List ℚ) (keep_order : Bool := true) :
    List String :=
  (solutionsAcc numbers keep_order).insertionSort fun s t => strLe s t = true

/-- Acceptance test of the source: `abs(result - 24) < 1e-9` over exact
rationals. -/
def acceptTol (v : ℚ) : Bool := decide (|v - 24| < tol)

/-- Acceptance test as the specification words it: the exact value equals the
exact value 24. -/
def acceptExact (v : ℚ) : Bool := decide (v = 24)

/-- One candidate of the specification-side enumeration: the formatted string
when the candidate's evaluation succeeds and its value passes `accept`,
nothing otherwise. -/
def specCandidate (accept : ℚ → Bool) (perm : List ℚ) (op1 op2 op3 : Op)
    (st : Structure) : Option String :=
  match perm with
  | [a, b, c, d] =>
    match evalStructVal st a b c d op1 op2 op3 with
    | some v => if accept v then some (formatStruct st a b c d op1 op2 op3) else none
    | none => none
  | _ => none

/-- Specification-side candidate enumeration: for every ordering (the single
given order when order is preserved, all permutations otherwise), every
operator triple and every structure, keep the formatted string of each
candidate whose evaluation succeeds and whose value passes `accept`. -/
def acceptedExprs (accept : ℚ → Bool) (numbers : List ℚ) (preserveOrder : Bool) : List String :=
  (if preserveOrder then [numbers] else numbers.permutations').flatMap fun perm =>
    allOps.flatMap fun op1 =>
      allOps.flatMap fun op2 =>
        allOps.flatMap fun op3 =>
          allStructs.filterMap fun st =>
            specCandidate accept perm op1 op2 op3 st

/-- Specification-side search: the set of accepted formatted candidate strings
(duplicates collapse) as a lexicographically sorted sequence. -/
def specSearch (accept : ℚ → Bool) (numbers : List ℚ) (preserveOrder : Bool) : List String :=
  ((acceptedExprs accept numbers preserveOrder).dedup).insertionSort fun s t => strLe s t = true

/-- One candidate accepts the string `s`: its evaluation succeeds, its value
passes the acceptance test, and `s` is its formatted rendering. -/
def IsAccepted (accept : ℚ → Bool) (a b c d : ℚ) (op1 op2 op3 : Op) (st : Structure)
    (s : String) : Prop :=
  ∃ v, evalStructVal st a b c d op1 op2 op3 = some v ∧ accept v = true ∧
    s = formatStruct st a b c d op1 op2 op3

/-- Some candidate of the search space — an ordering drawn from the single
given order or from all permutations, an operator triple, a structure —
accepts the string `s`. -/
def ExistsCandidate (accept : ℚ → Bool) (numbers : List ℚ) (preserveOrder : Bool)
    (s : String) : Prop :=
  ∃ perm ∈ (if preserveOrder then [numbers] else numbers.permutations'),
    ∃ op1 ∈ allOps, ∃ op2 ∈ allOps, ∃ op3 ∈ allOps, ∃ st ∈ allStructs,
      ∃ a b c d : ℚ, perm = [a, b, c, d] ∧ IsAccepted accept a b c d op1 op2 op3 st s

/-- A rational value is representable as an integer fraction `n / d` with
numerator magnitude at most `N` and nonzero denominator of magnitude at most
`D` (not necessarily in lowest terms). Used to bound the denominators of
values reachable from rank-range operands. -/
def Bnd (N D : ℕ) (v : ℚ) : Prop :=
  ∃ n d : ℤ, d ≠ 0 ∧ n.natAbs ≤ N ∧ d.natAbs ≤ D ∧ v = (n : ℚ) / (d : ℚ)

/-- State-passing embedding of the search for the read-only-operands claim:
the operand list is threaded through the ordering loop as explicit state next
to the solution set, exactly as the loop body reads it; the body never writes
the operand component. Returns the sorted solutions with the final state. -/
def find_all_solutions_state (numbers : List ℚ) (keep_order : Bool) :
    List String × List ℚ :=
  let st := (if keep_order then [numbers] else numbers.permutations').foldl
    (fun (st : List String × List ℚ) perm =>
      match perm with
      | [a, b, c, d] => (searchStep a b c d st.1, st.2)
      | _ => (st.1, st.2)) ([], numbers)
  (st.1.insertionSort fun s t => strLe s t = true, st.2)

/-- Embedding of the `Card` class: a suit and a rank string. -/
structure Card where
  suit : String
  rank : String

/-- Embedding of `Card._get_value`: ace is 1, face cards are 11/12/13, any
other rank is read as a decimal numeral (only `'2'`…`'10'` occur in a deck;
the `getD 0` branch is unreachable for deck cards). -/
def Card.value (c : Card) : ℚ :=
  if c.rank = "A" then 1
  else if c.rank = "J" then 11
  else if c.rank = "Q" then 12
  else if c.rank = "K" then 13
  else ((c.rank.toNat?).getD 0 : ℕ)

/-- Embedding of `Game24.find_all_solutions`: maps cards to their values and
searches with the default `keep_order=True`. -/
def find_all_solutions (cards : List Card) : List String :=
  find_all_solutions_from_numbers (cards.map Card.value)

/-- Embedding of `Game24.has_solution`: `len(solutions) > 0`. -/
def has_solution (cards : List Card) : Bool :=
  decide (0 < (find_all_solutions cards).length)

/-- The executable character-list comparison agrees with the lexicographic
strict order on character lists. -/
theorem charsLt_iff : ∀ l₁ l₂ : List Char, charsLt l₁ l₂ = true ↔ List.Lex (· < ·) l₁ l₂
  | [], [] => by
    simp only [charsLt, Bool.false_eq_true, false_iff]
    exact List.Lex.not_nil_right _ _
  | _ :: _, [] => by
    simp only [charsLt, Bool.false_eq_true, false_iff]
    exact List.Lex.not_nil_right _ _
  | [], _ :: _ => by
    simp only [charsLt, true_iff]
    exact List.Lex.nil
  | a :: as, b :: bs => by
    simp only [charsLt, Bool.or_eq_true, Bool.and_eq_true, decide_eq_true_eq,
      charsLt_iff as bs]
    constructor
    · rintro (hab | ⟨rfl, h⟩)
      · exact List.Lex.rel hab
      · exact List.Lex.cons h
    · intro h
      cases h with
      | cons h => exact Or.inr ⟨rfl, h⟩
      | rel h => exact Or.inl h

/-- The executable string comparison used in the final sort agrees with the
lexicographic (code-point) order on `String`. -/
theorem strLe_iff (s t : String) : strLe s t = true ↔ s ≤ t := by
  rw [← not_lt]
  have hlt : t < s ↔ List.Lex (· < ·) t.data s.data := String.lt_iff_toList_lt
  rw [hlt, ← charsLt_iff]
  simp [strLe]

instance : IsTrans String fun s t : String => strLe s t = true :=
  ⟨fun a b c hab hbc =>
    (strLe_iff a c).mpr (le_trans ((strLe_iff a b).mp hab) ((strLe_iff b c).mp hbc))⟩

instance : IsTotal String fun s t : String => strLe s t = true :=
  ⟨fun a b => (le_total a b).imp (strLe_iff a b).mpr (strLe_iff b a).mpr⟩

instance : IsAntisymm String fun s t : String => strLe s t = true :=
  ⟨fun a b hab hba => le_antisymm ((strLe_iff a b).mp hab) ((strLe_iff b a).mp hba)⟩

/-- Membership in a left fold whose step adds exactly the strings satisfying a
per-element predicate. -/
theorem mem_foldl_iff {α : Type} (g : α → List String → List String) (P : α → String → Prop)
    (hg : ∀ x acc s, s ∈ g x acc ↔ s ∈ acc ∨ P x s) :
    ∀ (l : List α) (acc : List String) (s : String),
      s ∈ l.foldl (fun acc x => g x acc) acc ↔ s ∈ acc ∨ ∃ x ∈ l, P x s
  | [], acc, s => by simp
  | x :: l, acc, s => by
    simp only [List.foldl_cons, mem_foldl_iff g P hg l, hg, List.mem_cons]
    constructor
    · rintro ((h | h) | ⟨y, hy, h⟩)
      · exact Or.inl h
      · exact Or.inr ⟨x, Or.inl rfl, h⟩
      · exact Or.inr ⟨y, Or.inr hy, h⟩
    · rintro (h | ⟨y, (rfl | hy), h⟩)
      · exact Or.inl (Or.inl h)
      · exact Or.inl (Or.inr h)
      · exact Or.inr ⟨y, hy, h⟩

/-- A left fold whose step preserves duplicate-freeness preserves it overall. -/
theorem nodup_foldl {α : Type} (g : α → List String → List String)
    (hg : ∀ x acc, acc.Nodup → (g x acc).Nodup) :
    ∀ (l : List α) (acc : List String), acc.Nodup → (l.foldl (fun acc x => g x acc) acc).Nodup
  | [], _, h => h
  | x :: l, acc, h => nodup_foldl g hg l (g x acc) (hg x acc h)

/-- One step of the innermost loop adds exactly the accepted strings of that
candidate. -/
theorem mem_structStep_step (a b c d : ℚ) (op1 op2 op3 : Op) (st : Structure)
    (acc : List String) (s : String) :
    (s ∈ (let r := evaluate_expression a b c d op1 op2 op3 st
          if r.1 then acc.insert r.2 else acc)) ↔
      s ∈ acc ∨ IsAccepted acceptTol a b c d op1 op2 op3 st s := by
  rcases h : evalStructVal st a b c d op1 op2 op3 with _ | v
  · simp [evaluate_expression, h, IsAccepted]
  · by_cases htol : |v - 24| < tol
    · simp only [evaluate_expression, h, htol, if_true, List.mem_insert_iff, IsAccepted,
        acceptTol, Option.some.injEq, decide_eq_true_eq]
      constructor
      · rintro (rfl | hmem)
        · exact Or.inr ⟨v, rfl, htol, rfl⟩
        · exact Or.inl hmem
      · rintro (hmem | ⟨v', rfl, _, rfl⟩)
        · exact Or.inr hmem
        · exact Or.inl rfl
    · simp [evaluate_expression, h, htol, IsAccepted, acceptTol]

/-- Membership after the structure loop. -/
theorem mem_structStep (a b c d : ℚ) (op1 op2 op3 : Op) (acc : List String) (s : String) :
    s ∈ structStep a b c d op1 op2 op3 acc ↔
      s ∈ acc ∨ ∃ st ∈ allStructs, IsAccepted acceptTol a b c d op1 op2 op3 st s :=
  mem_foldl_iff _ _ (fun st acc s => mem_structStep_step a b c d op1 op2 op3 st acc s)
    allStructs acc s

/-- Membership after the three operator loops. -/
theorem mem_searchStep (a b c d : ℚ) (acc : List String) (s : String) :
    s ∈ searchStep a b c d acc ↔
      s ∈ acc ∨ ∃ op1 ∈ allOps, ∃ op2 ∈ allOps, ∃ op3 ∈ allOps, ∃ st ∈ allStructs,
        IsAccepted acceptTol a b c d op1 op2 op3 st s := by
  have h3 : ∀ (op1 op2 : Op) (acc : List String) (s : String),
      s ∈ allOps.foldl (fun acc op3 => structStep a b c d op1 op2 op3 acc) acc ↔
        s ∈ acc ∨ ∃ op3 ∈ allOps, ∃ st ∈ allStructs,
          IsAccepted acceptTol a b c d op1 op2 op3 st s :=
    fun op1 op2 acc s =>
      mem_foldl_iff _ _ (fun op3 acc s => mem_structStep a b c d op1 op2 op3 acc s) allOps acc s
  have h2 : ∀ (op1 : Op) (acc : List String) (s : String),
      s ∈ allOps.foldl (fun acc op2 => allOps.foldl
            (fun acc op3 => structStep a b c d op1 op2 op3 acc) acc) acc ↔
        s ∈ acc ∨ ∃ op2 ∈ allOps, ∃ op3 ∈ allOps, ∃ st ∈ allStructs,
          IsAccepted acceptTol a b c d op1 op2 op3 st s :=
    fun op1 acc s => mem_foldl_iff _ _ (fun op2 acc s => h3 op1 op2 acc s) allOps acc s
  exact mem_foldl_iff _ _ (fun op1 acc s => h2 op1 acc s) allOps acc s

/-- Membership in the accumulated solution set: exactly the strings some
candidate of the search space accepts. -/
theorem mem_solutionsAcc (numbers : List ℚ) (keep : Bool) (s : String) :
    s ∈ solutionsAcc numbers keep ↔ ExistsCandidate acceptTol numbers keep s := by
  have hg : ∀ (perm : List ℚ) (acc : List String) (s : String),
      (s ∈ (match perm with
            | [a, b, c, d] => searchStep a b c d acc
            | _ => acc)) ↔
        s ∈ acc ∨ ∃ op1 ∈ allOps, ∃ op2 ∈ allOps, ∃ op3 ∈ allOps, ∃ st ∈ allStructs,
          ∃ a b c d : ℚ, perm = [a, b, c, d] ∧ IsAccepted acceptTol a b c d op1 op2 op3 st s := by
    intro perm acc s
    match perm with
    | [] => simp
    | [_] => simp
    | [_, _] => simp
    | [_, _, _] => simp
    | [a, b, c, d] =>
      rw [mem_searchStep a b c d acc s]
      constructor
      · rintro (h | ⟨o1, h1, o2, h2, o3, h3, st, hst, hacc⟩)
        · exact Or.inl h
        · exact Or.inr ⟨o1, h1, o2, h2, o3, h3, st, hst, a, b, c, d, rfl, hacc⟩
      · rintro (h | ⟨o1, h1, o2, h2, o3, h3, st, hst, a', b', c', d', heq, hacc⟩)
        · exact Or.inl h
        · obtain ⟨rfl, rfl, rfl, rfl⟩ : a = a' ∧ b = b' ∧ c = c' ∧ d = d' := by simpa using heq
          exact Or.inr ⟨o1, h1, o2, h2, o3, h3, st, hst, hacc⟩
    | _ :: _ :: _ :: _ :: _ :: _ => simp
  rw [solutionsAcc, ExistsCandidate]
  rw [mem_foldl_iff _ _ hg _ [] s]
  simp

/-- A specification-side candidate produces `s` exactly when the ordering is a
quadruple whose candidate accepts `s`. -/
theorem specCandidate_eq_some (accept : ℚ → Bool) (perm : List ℚ) (op1 op2 op3 : Op)
    (st : Structure) (s : String) :
    specCandidate accept perm op1 op2 op3 st = some s ↔
      ∃ a b c d : ℚ, perm = [a, b, c, d] ∧ IsAccepted accept a b c d op1 op2 op3 st s := by
  match perm with
  | [] => simp [specCandidate]
  | [_] => simp [specCandidate]
  | [_, _] => simp [specCandidate]
  | [_, _, _] => simp [specCandidate]
  | [a, b, c, d] =>
    rw [specCandidate]
    rcases h : evalStructVal st a b c d op1 op2 op3 with _ | v
    · simp only [IsAccepted]
      constructor
      · intro hfalse; cases hfalse
      · rintro ⟨a', b', c', d', heq, v, hv, _⟩
        obtain ⟨rfl, rfl, rfl, rfl⟩ : a = a' ∧ b = b' ∧ c = c' ∧ d = d' := by simpa using heq
        rw [h] at hv; cases hv
    · by_cases hacc : accept v = true
      · simp only [hacc, if_true, Option.some.injEq, IsAccepted]
        constructor
        · rintro rfl
          exact ⟨a, b, c, d, rfl, v, h, hacc, rfl⟩
        · rintro ⟨a', b', c', d', heq, v', hv', _, rfl⟩
          obtain ⟨rfl, rfl, rfl, rfl⟩ : a = a' ∧ b = b' ∧ c = c' ∧ d = d' := by simpa using heq
          rfl
      · simp only [hacc, if_false, IsAccepted]
        constructor
        · intro hfalse; cases hfalse
        · rintro ⟨a', b', c', d', heq, v', hv', hacc', _⟩
          obtain ⟨rfl, rfl, rfl, rfl⟩ : a = a' ∧ b = b' ∧ c = c' ∧ d = d' := by simpa using heq
          rw [h] at hv'; cases hv'
          exact absurd hacc' hacc
  | _ :: _ :: _ :: _ :: _ :: _ => simp [specCandidate]

/-- The specification-side enumeration contains exactly the strings some
candidate accepts. -/
theorem mem_acceptedExprs (accept : ℚ → Bool) (numbers : List ℚ) (preserve : Bool)
    (s : String) :
    s ∈ acceptedExprs accept numbers preserve ↔ ExistsCandidate accept numbers preserve s := by
  rw [acceptedExprs, ExistsCandidate]
  simp only [List.mem_flatMap, List.mem_filterMap, specCandidate_eq_some]

/-- The accumulated solution set never holds a string twice: it is built by
set insertion. -/
theorem nodup_solutionsAcc (numbers : List ℚ) (keep : Bool) :
    (solutionsAcc numbers keep).Nodup := by
  have hstruct : ∀ (a b c d : ℚ) (op1 op2 op3 : Op) (acc : List String),
      acc.Nodup → (structStep a b c d op1 op2 op3 acc).Nodup := by
    intro a b c d op1 op2 op3
    refine nodup_foldl _ (fun st acc h => ?_) allStructs
    dsimp only
    split
    · exact h.insert
    · exact h
  have hsearch : ∀ (a b c d : ℚ) (acc : List String),
      acc.Nodup → (searchStep a b c d acc).Nodup := by
    intro a b c d
    exact nodup_foldl _ (fun op1 acc h =>
      nodup_foldl _ (fun op2 acc h =>
        nodup_foldl _ (fun op3 acc h => hstruct a b c d op1 op2 op3 acc h) allOps acc h)
        allOps acc h) allOps
  refine nodup_foldl _ (fun perm acc h => ?_) _ [] List.nodup_nil
  match perm with
  | [] => exact h
  | [_] => exact h
  | [_, _] => exact h
  | [_, _, _] => exact h
  | [a, b, c, d] => exact hsearch a b c d acc h
  | _ :: _ :: _ :: _ :: _ :: _ => exact h

/-- Refinement: the imperative accumulation-and-sort of the source equals the
specification-side pipeline (enumerate, filter by the acceptance test, format,
deduplicate, sort lexicographically) with the source's tolerance acceptance. -/
theorem find_all_eq_specSearch (numbers : List ℚ) (keep : Bool) :
    find_all_solutions_from_numbers numbers keep = specSearch acceptTol numbers keep := by
  have hperm : List.Perm (solutionsAcc numbers keep)
      ((acceptedExprs acceptTol numbers keep).dedup) := by
    refine List.perm_of_nodup_nodup_toFinset_eq (nodup_solutionsAcc numbers keep)
      (List.nodup_dedup _) ?_
    ext x
    simp only [List.mem_toFinset, List.mem_dedup, mem_solutionsAcc, mem_acceptedExprs]
  refine List.eq_of_perm_of_sorted ?_ (List.sorted_insertionSort _ _)
    (List.sorted_insertionSort _ _)
  exact ((List.perm_insertionSort _ _).trans hperm).trans
    (List.perm_insertionSort _ _).symm

/-- Representability bounds weaken monotonically. -/
theorem Bnd.mono {N D N' D' : ℕ} (hN : N ≤ N') (hD : D ≤ D') {v : ℚ} (h : Bnd N D v) :
    Bnd N' D' v := by
  obtain ⟨n, d, hd, hn, hdD, rfl⟩ := h
  exact ⟨n, d, hd, le_trans hn hN, le_trans hdD hD, rfl⟩

/-- One operator application combines representability bounds: the uniform
bound covers addition, subtraction, multiplication and division at once. -/
theorem bnd_apply_op {N1 D1 N2 D2 : ℕ} {x y v : ℚ} {op : Op}
    (hx : Bnd N1 D1 x) (hy : Bnd N2 D2 y) (h : apply_op x y op = some v) :
    Bnd (N1 * D2 + N2 * D1 + N1 * N2) (D1 * D2 + D1 * N2) v := by
  obtain ⟨n1, d1, hd1, hn1, hD1, rfl⟩ := hx
  obtain ⟨n2, d2, hd2, hn2, hD2, rfl⟩ := hy
  have hq1 : (d1 : ℚ) ≠ 0 := Int.cast_ne_zero.mpr hd1
  have hq2 : (d2 : ℚ) ≠ 0 := Int.cast_ne_zero.mpr hd2
  cases op with
  | add =>
    rw [apply_op] at h
    obtain rfl := (Option.some.inj h).symm
    refine ⟨n1 * d2 + n2 * d1, d1 * d2, mul_ne_zero hd1 hd2, ?_, ?_, ?_⟩
    · calc (n1 * d2 + n2 * d1).natAbs
          ≤ (n1 * d2).natAbs + (n2 * d1).natAbs := Int.natAbs_add_le _ _
        _ = n1.natAbs * d2.natAbs + n2.natAbs * d1.natAbs := by
            rw [Int.natAbs_mul, Int.natAbs_mul]
        _ ≤ N1 * D2 + N2 * D1 := Nat.add_le_add (Nat.mul_le_mul hn1 hD2) (Nat.mul_le_mul hn2 hD1)
        _ ≤ N1 * D2 + N2 * D1 + N1 * N2 := Nat.le_add_right _ _
    · calc (d1 * d2).natAbs = d1.natAbs * d2.natAbs := Int.natAbs_mul _ _
        _ ≤ D1 * D2 := Nat.mul_le_mul hD1 hD2
        _ ≤ D1 * D2 + D1 * N2 := Nat.le_add_right _ _
    · push_cast
      field_simp
  | sub =>
    rw [apply_op] at h
    obtain rfl := (Option.some.inj h).symm
    refine ⟨n1 * d2 - n2 * d1, d1 * d2, mul_ne_zero hd1 hd2, ?_, ?_, ?_⟩
    · calc (n1 * d2 - n2 * d1).natAbs
          ≤ (n1 * d2).natAbs + (n2 * d1).natAbs := Int.natAbs_sub_le _ _
        _ = n1.natAbs * d2.natAbs + n2.natAbs * d1.natAbs := by
            rw [Int.natAbs_mul, Int.natAbs_mul]
        _ ≤ N1 * D2 + N2 * D1 := Nat.add_le_add (Nat.mul_le_mul hn1 hD2) (Nat.mul_le_mul hn2 hD1)
        _ ≤ N1 * D2 + N2 * D1 + N1 * N2 := Nat.le_add_right _ _
    · calc (d1 * d2).natAbs = d1.natAbs * d2.natAbs := Int.natAbs_mul _ _
        _ ≤ D1 * D2 := Nat.mul_le_mul hD1 hD2
        _ ≤ D1 * D2 + D1 * N2 := Nat.le_add_right _ _
    · push_cast
      field_simp
      ring
  | mul =>
    rw [apply_op] at h
    obtain rfl := (Option.some.inj h).symm
    refine ⟨n1 * n2, d1 * d2, mul_ne_zero hd1 hd2, ?_, ?_, ?_⟩
    · calc (n1 * n2).natAbs = n1.natAbs * n2.natAbs := Int.natAbs_mul _ _
        _ ≤ N1 * N2 := Nat.mul_le_mul hn1 hn2
        _ ≤ N1 * D2 + N2 * D1 + N1 * N2 := Nat.le_add_left _ _
    · calc (d1 * d2).natAbs = d1.natAbs * d2.natAbs := Int.natAbs_mul _ _
        _ ≤ D1 * D2 := Nat.mul_le_mul hD1 hD2
        _ ≤ D1 * D2 + D1 * N2 := Nat.le_add_right _ _
    · push_cast
      field_simp
  | div =>
    rw [apply_op] at h
    split_ifs at h with hy0
    obtain rfl := (Option.some.inj h).symm
    have hn2z : n2 ≠ 0 := by
      intro h0
      apply hy0
      rw [h0]
      simp
    have hq3 : (n2 : ℚ) ≠ 0 := Int.cast_ne_zero.mpr hn2z
    refine ⟨n1 * d2, d1 * n2, mul_ne_zero hd1 hn2z, ?_, ?_, ?_⟩
    · calc (n1 * d2).natAbs = n1.natAbs * d2.natAbs := Int.natAbs_mul _ _
        _ ≤ N1 * D2 := Nat.mul_le_mul hn1 hD2
        _ ≤ N1 * D2 + N2 * D1 := Nat.le_add_right _ _
        _ ≤ N1 * D2 + N2 * D1 + N1 * N2 := Nat.le_add_right _ _
    · calc (d1 * n2).natAbs = d1.natAbs * n2.natAbs := Int.natAbs_mul _ _
        _ ≤ D1 * N2 := Nat.mul_le_mul hD1 hn2
        _ ≤ D1 * D2 + D1 * N2 := Nat.le_add_left _ _
    · push_cast
      field_simp

/-- Every value produced by a structure evaluation on rank-bounded operands is
an integer fraction with denominator magnitude at most 135798586. -/
theorem bnd_evalStructVal {a b c d : ℚ} (ha : Bnd 13 1 a) (hb : Bnd 13 1 b)
    (hc : Bnd 13 1 c) (hd : Bnd 13 1 d) {op1 op2 op3 : Op} {st : Structure} {v : ℚ}
    (h : evalStructVal st a b c d op1 op2 op3 = some v) : Bnd 2145419445 135798586 v := by
  have m1 : ∀ w : ℚ, Bnd 13 1 w → Bnd 195 14 w :=
    fun w hw => hw.mono (by norm_num) (by norm_num)
  have m2 : ∀ w : ℚ, Bnd 195 14 w → Bnd 43485 2926 w :=
    fun w hw => hw.mono (by norm_num) (by norm_num)
  have step1 : ∀ {x y w : ℚ} {op : Op}, Bnd 13 1 x → Bnd 13 1 y →
      apply_op x y op = some w → Bnd 195 14 w :=
    fun hx hy hw => (bnd_apply_op hx hy hw).mono (by norm_num) (by norm_num)
  have step2 : ∀ {x y w : ℚ} {op : Op}, Bnd 195 14 x → Bnd 195 14 y →
      apply_op x y op = some w → Bnd 43485 2926 w :=
    fun hx hy hw => (bnd_apply_op hx hy hw).mono (by norm_num) (by norm_num)
  have step3 : ∀ {x y w : ℚ} {op : Op}, Bnd 43485 2926 x → Bnd 43485 2926 y →
      apply_op x y op = some w → Bnd 2145419445 135798586 w :=
    fun hx hy hw => (bnd_apply_op hx hy hw).mono (by norm_num) (by norm_num)
  cases st with
  | s1 =>
    rw [evalStructVal] at h
    obtain ⟨x, hx, h⟩ := Option.bind_eq_some.mp h
    obtain ⟨y, hy, h⟩ := Option.bind_eq_some.mp h
    exact step3 (step2 (step1 ha hb hx) (m1 _ hc) hy) (m2 _ (m1 _ hd)) h
  | s2 =>
    rw [evalStructVal] at h
    obtain ⟨x, hx, h⟩ := Option.bind_eq_some.mp h
    obtain ⟨y, hy, h⟩ := Option.bind_eq_some.mp h
    exact step3 (step2 (m1 _ ha) (step1 hb hc hx) hy) (m2 _ (m1 _ hd)) h
  | s3 =>
    rw [evalStructVal] at h
    obtain ⟨x, hx, h⟩ := Option.bind_eq_some.mp h
    obtain ⟨y, hy, h⟩ := Option.bind_eq_some.mp h
    exact (step2 (step1 ha hb hx) (step1 hc hd hy) h).mono (by norm_num) (by norm_num)
  | s4 =>
    rw [evalStructVal] at h
    obtain ⟨x, hx, h⟩ := Option.bind_eq_some.mp h
    obtain ⟨y, hy, h⟩ := Option.bind_eq_some.mp h
    exact step3 (m2 _ (m1 _ ha)) (step2 (step1 hb hc hx) (m1 _ hd) hy) h
  | s5 =>
    rw [evalStructVal] at h
    obtain ⟨x, hx, h⟩ := Option.bind_eq_some.mp h
    obtain ⟨y, hy, h⟩ := Option.bind_eq_some.mp h
    exact step3 (m2 _ (m1 _ ha)) (step2 (m1 _ hb) (step1 hc hd hx) hy) h

/-- For a value representable with denominator magnitude at most 135798586,
the tolerance test of the source coincides with exact equality to 24: such a
value is either exactly 24 or at least 1/135798586 away, and the exact value
of the double 1e-9 is smaller than that gap. -/
theorem bnd_gap {v : ℚ} (h : Bnd 2145419445 135798586 v) : |v - 24| < tol ↔ v = 24 := by
  obtain ⟨n, d, hd0, _, hD, rfl⟩ := h
  have hdq : (d : ℚ) ≠ 0 := Int.cast_ne_zero.mpr hd0
  constructor
  · intro hlt
    by_contra hne
    have hval : (n : ℚ) / d - 24 = ((n - 24 * d : ℤ) : ℚ) / d := by
      push_cast
      field_simp
      ring
    have hnz : (n - 24 * d : ℤ) ≠ 0 := by
      intro h0
      apply hne
      have hn24 : (n : ℤ) = 24 * d := by omega
      rw [hn24]
      push_cast
      field_simp
    have h1 : (1 : ℚ) ≤ |((n - 24 * d : ℤ) : ℚ)| := by
      rw [← Int.cast_abs]
      exact_mod_cast Int.one_le_abs hnz
    have hDq : |(d : ℚ)| ≤ 135798586 := by
      rw [← Int.cast_abs]
      have : |d| ≤ (135798586 : ℤ) := by
        rw [Int.abs_eq_natAbs]
        exact_mod_cast hD
      exact_mod_cast this
    have hdpos : (0 : ℚ) < |(d : ℚ)| := abs_pos.mpr hdq
    have hchain : (1 : ℚ) / 135798586 ≤ |(n : ℚ) / d - 24| := by
      rw [hval, abs_div]
      have h2 : (1 : ℚ) / 135798586 ≤ 1 / |(d : ℚ)| :=
        one_div_le_one_div_of_le hdpos hDq
      exact le_trans h2 ((div_le_div_iff_of_pos_right hdpos).mpr h1)
    have htol : tol < (1 : ℚ) / 135798586 := by
      rw [tol]
      norm_num
    linarith
  · intro h24
    rw [h24]
    simp only [sub_self, abs_zero]
    rw [tol]
    norm_num

/-- The state-passing search returns the operand list unchanged next to the
very result of the plain search. -/
theorem find_all_solutions_state_spec (numbers : List ℚ) (keep : Bool) :
    find_all_solutions_state numbers keep =
      (find_all_solutions_from_numbers numbers keep, numbers) := by
  have key : ∀ (l : List (List ℚ)) (acc : List String) (nums : List ℚ),
      l.foldl (fun (st : List String × List ℚ) perm =>
        match perm with
        | [a, b, c, d] => (searchStep a b c d st.1, st.2)
        | _ => (st.1, st.2)) (acc, nums)
      = (l.foldl (fun acc perm =>
          match perm with
          | [a, b, c, d] => searchStep a b c d acc
          | _ => acc) acc, nums) := by
    intro l
    induction l with
    | nil => intro acc nums; rfl
    | cons p l ih =>
      intro acc nums
      simp only [List.foldl_cons]
      match p with
      | [] => exact ih acc nums
      | [_] => exact ih acc nums
      | [_, _] => exact ih acc nums
      | [_, _, _] => exact ih acc nums
      | [a, b, c, d] => exact ih (searchStep a b c d acc) nums
      | _ :: _ :: _ :: _ :: _ :: _ => exact ih acc nums
  rw [find_all_solutions_state, find_all_solutions_from_numbers, solutionsAcc, key]

/-- The search output is sorted for the lexicographic order on strings. -/
theorem find_all_sorted (numbers : List ℚ) (keep : Bool) :
    (find_all_solutions_from_numbers numbers keep).Sorted (· ≤ ·) := by
  rw [find_all_solutions_from_numbers]
  exact (List.sorted_insertionSort _ _).imp fun {x y} hxy => (strLe_iff x y).mp hxy

/-- The search output never contains a string twice. -/
theorem find_all_nodup (numbers : List ℚ) (keep : Bool) :
    (find_all_solutions_from_numbers numbers keep).Nodup := by
  rw [find_all_solutions_from_numbers]
  exact ((List.perm_insertionSort _ _).nodup_iff).mpr (nodup_solutionsAcc numbers keep)

/-- Every string in the search output is the rendering of a candidate whose
evaluation succeeded and passed the tolerance acceptance test. -/
theorem find_all_sound (numbers : List ℚ) (keep : Bool) (s : String)
    (hs : s ∈ find_all_solutions_from_numbers numbers keep) :
    ∃ (a b c d : ℚ) (op1 op2 op3 : Op) (st : Structure) (v : ℚ),
      evalStructVal st a b c d op1 op2 op3 = some v ∧ |v - 24| < tol ∧
        s = formatStruct st a b c d op1 op2 op3 := by
  rw [find_all_solutions_from_numbers, List.mem_insertionSort, mem_solutionsAcc] at hs
  obtain ⟨perm, _, o1, _, o2, _, o3, _, st, _, a, b, c, d, _, v, hv, hacc, rfl⟩ := hs
  refine ⟨a, b, c, d, o1, o2, o3, st, v, hv, ?_, rfl⟩
  simpa [acceptTol] using hacc

/-- Claim C1 (amended): for any operands and either preserve-order mode, the
search returns exactly the sorted, deduplicated set of formatted strings of
the candidates — the given ordering alone when order is preserved, all
permutations otherwise, crossed with the 64 operator triples and the 5
structures — whose evaluation succeeds and lands within the source's
tolerance `1e-9` of 24 (rather than exactly on 24, which the tolerance
comparison of the source does not enforce for arbitrary rational operands). -/
theorem search_is_sorted_dedup_of_accepted (numbers : List ℚ) (keep : Bool) :
    find_all_solutions_from_numbers numbers keep = specSearch acceptTol numbers keep :=
  find_all_eq_specSearch numbers keep

/-- Claim C2 (amended): every string the search returns is the rendering of a
candidate whose exact value lies within the exact rational value of the
double `1e-9` of 24; membership is decided by that tolerance comparison, not
by exact equality (which fails for suitably chosen rational operands). -/
theorem returned_strings_within_tolerance (numbers : List ℚ) (keep : Bool) (s : String)
    (hs : s ∈ find_all_solutions_from_numbers numbers keep) :
    ∃ (a b c d : ℚ) (op1 op2 op3 : Op) (st : Structure) (v : ℚ),
      evalStructVal st a b c d op1 op2 op3 = some v ∧ |v - 24| < tol ∧
        s = formatStruct st a b c d op1 op2 op3 :=
  find_all_sound numbers keep s hs

/-- Claim C3: the search is a total function into sorted (possibly empty)
string sequences; a candidate whose evaluation divides by zero yields the
non-solution marker `(False, "")` and contributes nothing — every output
string stems from a successfully evaluated candidate. -/
theorem search_never_raises (numbers : List ℚ) (keep : Bool) :
    (find_all_solutions_from_numbers numbers keep).Sorted (· ≤ ·) ∧
    (∀ (a b c d : ℚ) (op1 op2 op3 : Op) (st : Structure),
      evalStructVal st a b c d op1 op2 op3 = none →
        evaluate_expression a b c d op1 op2 op3 st = (false, "")) ∧
    (∀ s ∈ find_all_solutions_from_numbers numbers keep,
      ∃ (a b c d : ℚ) (op1 op2 op3 : Op) (st : Structure) (v : ℚ),
        evalStructVal st a b c d op1 op2 op3 = some v ∧
          s = formatStruct st a b c d op1 op2 op3) := by
  refine ⟨find_all_sorted numbers keep, ?_, ?_⟩
  · intro a b c d op1 op2 op3 st h
    simp [evaluate_expression, h]
  · intro s hs
    obtain ⟨a, b, c, d, o1, o2, o3, st, v, hv, _, heq⟩ := find_all_sound numbers keep s hs
    exact ⟨a, b, c, d, o1, o2, o3, st, v, hv, heq⟩

/-- Claim C4: the search output is lexicographically sorted, free of
duplicates, and deterministic (in this pure embedding two calls on identical
arguments are the same term, so determinism is definitional). -/
theorem search_sorted_nodup_deterministic (numbers : List ℚ) (keep : Bool) :
    (find_all_solutions_from_numbers numbers keep).Sorted (· ≤ ·) ∧
    (find_all_solutions_from_numbers numbers keep).Nodup ∧
    find_all_solutions_from_numbers numbers keep = find_all_solutions_from_numbers numbers keep :=
  ⟨find_all_sorted numbers keep, find_all_nodup numbers keep, rfl⟩

/-- Claim C5: relaxing the order constraint can only add solutions — the
preserve-order result is never longer than the all-permutations result. -/
theorem keep_order_le_all_orders (numbers : List ℚ) :
    (find_all_solutions_from_numbers numbers true).length ≤
      (find_all_solutions_from_numbers numbers false).length := by
  have hsub : solutionsAcc numbers true ⊆ solutionsAcc numbers false := by
    intro s hs
    rw [mem_solutionsAcc, ExistsCandidate] at hs ⊢
    obtain ⟨perm, hperm, rest⟩ := hs
    refine ⟨perm, ?_, rest⟩
    rw [if_pos rfl, List.mem_singleton] at hperm
    subst hperm
    rw [if_neg (by simp)]
    exact List.mem_permutations'.mpr (List.Perm.refl _)
  have h1 := nodup_solutionsAcc numbers true
  have h2 := nodup_solutionsAcc numbers false
  rw [find_all_solutions_from_numbers, find_all_solutions_from_numbers,
    List.length_insertionSort, List.length_insertionSort,
    ← List.dedup_eq_self.mpr h1, ← List.dedup_eq_self.mpr h2,
    ← List.card_toFinset, ← List.card_toFinset]
  exact Finset.card_le_card
    (fun x hx => List.mem_toFinset.mpr (hsub (List.mem_toFinset.mp hx)))

/-- Claim C6: the solvable-as-drawn check is true exactly when the
order-preserving search over the cards' values is non-empty (the wrapper
calls the search with its default `keep_order=True`). -/
theorem has_solution_iff_preserved_search_nonempty (cards : List Card) :
    has_solution cards = true ↔
      find_all_solutions_from_numbers (cards.map Card.value) true ≠ [] := by
  rw [has_solution, find_all_solutions, decide_eq_true_iff]
  exact List.length_pos_iff_ne_nil

/-- Claim C9: with the operand list made explicit state threaded through the
search loop, the search returns it unchanged, and its solution component is
the plain search result — candidate evaluations share no mutable state. -/
theorem operands_read_only (numbers : List ℚ) (keep : Bool) :
    (find_all_solutions_state numbers keep).2 = numbers ∧
    (find_all_solutions_state numbers keep).1 = find_all_solutions_from_numbers numbers keep := by
  rw [find_all_solutions_state_spec]
  exact ⟨rfl, rfl⟩

/-- Claim C10: on integer operands in the rank range 1–13, the tolerance
acceptance test of the evaluator coincides with exact equality to 24: every
reachable value is an integer fraction with denominator magnitude at most
135798586, so it is either exactly 24 or farther than the double `1e-9` from
it. -/
theorem tolerance_is_exact_on_ranks (a b c d : ℕ)
    (ha1 : 1 ≤ a) (ha2 : a ≤ 13) (hb1 : 1 ≤ b) (hb2 : b ≤ 13)
    (hc1 : 1 ≤ c) (hc2 : c ≤ 13) (hd1 : 1 ≤ d) (hd2 : d ≤ 13)
    (op1 op2 op3 : Op) (st : Structure) (v : ℚ)
    (h : evalStructVal st (a : ℚ) (b : ℚ) (c : ℚ) (d : ℚ) op1 op2 op3 = some v) :
    |v - 24| < tol ↔ v = 24 := by
  have base : ∀ k : ℕ, k ≤ 13 → Bnd 13 1 (k : ℚ) := by
    intro k hk
    refine ⟨(k : ℤ), 1, one_ne_zero, ?_, by norm_num, by simp⟩
    simpa using hk
  exact bnd_gap (bnd_evalStructVal (base a ha2) (base b hb2) (base c hc2) (base d hd2) h)

section ConcreteEvaluations

unseal Rat.add Rat.mul Rat.sub Rat.inv

set_option maxRecDepth 1000000

/-- Claim C1 counterexample: for the rational operand 24 + 1/2000000000 (and
three ones, order preserved) the search result differs from the sorted,
deduplicated reference set of candidates evaluating exactly to 24 — the
tolerance test admits candidates the exact-equality reference excludes. -/
theorem search_differs_from_exact_reference :
    find_all_solutions_from_numbers [48000000001 / 2000000000, 1, 1, 1] true ≠
      specSearch acceptExact [48000000001 / 2000000000, 1, 1, 1] true := by
  decide

/-- Claim C2 counterexample: a returned string whose candidate's exact value
is 24 + 1/2000000000, not 24. -/
theorem returned_string_not_exactly_24 :
    "((48000000001/2000000000 * 1) * 1) * 1" ∈
        find_all_solutions_from_numbers [48000000001 / 2000000000, 1, 1, 1] true ∧
      evalStructVal .s1 (48000000001 / 2000000000) 1 1 1 .mul .mul .mul =
        some (48000000001 / 2000000000) ∧
      formatStruct .s1 (48000000001 / 2000000000) 1 1 1 .mul .mul .mul =
        "((48000000001/2000000000 * 1) * 1) * 1" ∧
      (48000000001 / 2000000000 : ℚ) ≠ 24 := by
  exact ⟨by decide, by decide, by decide, by decide⟩

/-- Claim C2 witness: a concrete returned string together with the tolerance
soundness statement instantiated at it. -/
theorem returned_strings_within_tolerance_witness :
    "(6 * (6 + 2)) / 2" ∈ find_all_solutions_from_numbers [6, 6, 2, 2] true ∧
      ∃ (a b c d : ℚ) (op1 op2 op3 : Op) (st : Structure) (v : ℚ),
        evalStructVal st a b c d op1 op2 op3 = some v ∧ |v - 24| < tol ∧
          "(6 * (6 + 2)) / 2" = formatStruct st a b c d op1 op2 op3 := by
  have hmem : "(6 * (6 + 2)) / 2" ∈ find_all_solutions_from_numbers [6, 6, 2, 2] true := by
    decide
  exact ⟨hmem, returned_strings_within_tolerance [6, 6, 2, 2] true _ hmem⟩

/-- Claim C3 witness: the specification's own example — operands (1,0,2,3),
operators (÷,+,+), leftmost structure — is silently discarded, the search
output at that input is sorted, and a concrete output string of another
input stems from a successfully evaluated candidate. -/
theorem search_never_raises_witness :
    evaluate_expression 1 0 2 3 .div .add .add .s1 = (false, "") ∧
      (find_all_solutions_from_numbers [1, 0, 2, 3] true).Sorted (· ≤ ·) ∧
      ∃ (a b c d : ℚ) (op1 op2 op3 : Op) (st : Structure) (v : ℚ),
        evalStructVal st a b c d op1 op2 op3 = some v ∧
          "(6 * (6 + 2)) / 2" = formatStruct st a b c d op1 op2 op3 :=
  ⟨(search_never_raises [1, 0, 2, 3] true).2.1 1 0 2 3 .div .add .add .s1 (by decide),
    (search_never_raises [1, 0, 2, 3] true).1,
    (search_never_raises [6, 6, 2, 2] true).2.2 "(6 * (6 + 2)) / 2" (by decide)⟩

/-- Claim C7: for operands (6,6,2,2) with order relaxed, the result is
non-empty and contains the exact string `"(6 * 2) + (6 * 2)"`. -/
theorem solutions_6622_contain_reference_string :
    "(6 * 2) + (6 * 2)" ∈ find_all_solutions_from_numbers [6, 6, 2, 2] false ∧
      find_all_solutions_from_numbers [6, 6, 2, 2] false ≠ [] := by
  have hmem : "(6 * 2) + (6 * 2)" ∈ find_all_solutions_from_numbers [6, 6, 2, 2] false := by
    rw [find_all_eq_specSearch]
    decide
  exact ⟨hmem, List.ne_nil_of_mem hmem⟩

/-- Claim C8: four ones admit no solution even over all orderings, and the
hand of four aces is unsolvable as drawn. -/
theorem solutions_1111_empty_and_aces_unsolvable :
    find_all_solutions_from_numbers [1, 1, 1, 1] false = [] ∧
      has_solution [⟨"♠", "A"⟩, ⟨"♥", "A"⟩, ⟨"♣", "A"⟩, ⟨"♦", "A"⟩] = false := by
  constructor
  · rw [find_all_eq_specSearch]
    decide
  · decide

/-- Claim C10 witness: the coincidence theorem applied at the quadruple
(6,6,6,6) with additions under the balanced structure, whose value is
exactly 24. -/
theorem tolerance_is_exact_on_ranks_witness :
    |(24 : ℚ) - 24| < tol ↔ (24 : ℚ) = 24 := by
  refine tolerance_is_exact_on_ranks 6 6 6 6 (by norm_num) (by norm_num) (by norm_num)
    (by norm_num) (by norm_num) (by norm_num) (by norm_num) (by norm_num)
    .add .add .add .s3 24 ?_
  show evalStructVal .s3 ((6 : ℕ) : ℚ) ((6 : ℕ) : ℚ) ((6 : ℕ) : ℚ) ((6 : ℕ) : ℚ)
    .add .add .add = some 24
  norm_num [evalStructVal, apply_op]

end ConcreteEvaluations

end Game24
